import Mathlib

/-!
zuul_exporter: reachability exporter for Zuul hosts

A shallow embedding of `zuul_exporter.go` and proofs about it.

* Go strings are modelled as lists of characters (`Str`).  Every separator the
  program looks for (`,`, `:`, `[`, `]`) is ASCII, and an ASCII byte never
  occurs inside a multi-byte UTF-8 sequence, so splitting by character and
  splitting by byte agree on every UTF-8 string.
* `log.Fatalln` terminates the process; it is modelled as the error branch of
  `Except`.
* `e.client.Get` is the only input of a scrape cycle.  It is modelled by a
  function telling, for the n-th request of the cycle and its URL, whether the
  request returned without error.
* `zuul_exporter.go` is embedded as it stands: the closing brace of the loop
  of `collect` is commented out, which puts `return nil` inside the loop.
* What a cycle does is recorded in a `Scrape`: the metrics sent on `ch`, in
  order, the URLs requested, in order, and the error result of `collect`.
* `prometheus.Counter` is modelled by the number of `Inc` calls made on it.
-/

namespace ZuulExporter

/-- A Go string. -/
abbrev Str := List Char

deriving instance DecidableEq for Except

/-! ## Standard library functions used by `main` -/

/-- Go `strings.IndexByte` / `bytealg.IndexByteString`: index of the first
occurrence of `c` in `s`; `none` stands for the result `-1`. -/
def IndexByte : Str → Char → Option Nat
  | [], _ => none
  | x :: xs, c => if x = c then some 0 else (IndexByte xs c).map (· + 1)

/-- Go `net.last`: index of the last occurrence of `c` in `s`; `none` stands
for the result `-1`. -/
def last : Str → Char → Option Nat
  | [], _ => none
  | x :: xs, c =>
    match last xs c with
    | some i => some (i + 1)
    | none => if x = c then some 0 else none

/-- Go `strings.Count(s, sep)` for the one-byte separator `c`. -/
def Count (s : Str) (c : Char) : Nat := s.count c

/-- The loop of Go `strings.genSplit(s, sep, 0, n)` for the one-byte separator
`,`: at most `n` cuts at the first remaining separator, the rest of the string
is the last element. -/
def genSplit : Nat → Str → List Str
  | 0, s => [s]
  | n + 1, s =>
    match IndexByte s ',' with
    | none => [s]
    | some m => s.take m :: genSplit n (s.drop (m + 1))

/-- Go `strings.Split(s, ",")`, that is `genSplit(s, ",", 0, -1)`, where the
number of elements is set to `Count(s, ",") + 1` before the loop. -/
def Split (s : Str) : List Str := genSplit (Count s ',') s

/-- Go `net.AddrError`. -/
structure AddrError where
  Err : String
  Addr : Str
deriving DecidableEq, Repr

/-- Go `net.SplitHostPort` (standard library, `net/ipsock.go`): splits
`host:port`, `[host]:port` into host and port.  The port is whatever follows
the last colon; it is not inspected.  (Older releases of the library also
refuse a `%` in a host that is not in brackets; no statement below accepts an
address with a `%` in it.) -/
def SplitHostPort (hostport : Str) : Except AddrError (Str × Str) :=
  -- The port starts after the last colon.
  match last hostport ':' with
  | none => .error ⟨"missing port in address", hostport⟩
  | some i =>
    if hostport.head? = some '[' then
      -- Expect the first ']' just before the last ':'.
      match IndexByte hostport ']' with
      | none => .error ⟨"missing ']' in address", hostport⟩
      | some end_ =>
        if end_ + 1 = hostport.length then
          .error ⟨"missing port in address", hostport⟩
        else if end_ + 1 = i then
          let host := (hostport.take end_).drop 1
          if (IndexByte (hostport.drop 1) '[').isSome then
            .error ⟨"unexpected '[' in address", hostport⟩
          else if (IndexByte (hostport.drop (end_ + 1)) ']').isSome then
            .error ⟨"unexpected ']' in address", hostport⟩
          else .ok (host, hostport.drop (i + 1))
        else if (hostport.drop (end_ + 1)).head? = some ':' then
          .error ⟨"too many colons in address", hostport⟩
        else .error ⟨"missing port in address", hostport⟩
    else
      let host := hostport.take i
      if (IndexByte host ':').isSome then
        .error ⟨"too many colons in address", hostport⟩
      else if (IndexByte hostport '[').isSome then
        .error ⟨"unexpected '[' in address", hostport⟩
      else if (IndexByte hostport ']').isSome then
        .error ⟨"unexpected ']' in address", hostport⟩
      else .ok (host, hostport.drop (i + 1))

/-! ## Data model -/

/-- Go `type zuulHost struct`. -/
structure zuulHost where
  hostname : Str
  port : Str
deriving DecidableEq, Repr

/-- A metric sent on the channel `ch`: a constant gauge of descriptor `e.up`
with its value and its `host` label, or the counter `e.scrapeFailures` with
the value it holds when it is sent. -/
inductive Metric where
  | up (value : Nat) (host : Str)
  | scrapeFailures (value : Nat)
deriving DecidableEq, Repr

/-- Go `type Exporter struct`: the host list and the failure counter.  The
client is the environment of a cycle, the descriptors are constants and the
mutex has no state between two sequential calls. -/
structure Exporter where
  scrapeHosts : List zuulHost
  scrapeFailures : Nat
deriving DecidableEq, Repr

/-- The outcome of `e.client.Get`: `client n uri` is `true` when the n-th
request of a cycle (counted from 0), made for `uri`, returns `err == nil`. -/
abbrev Client := Nat → Str → Bool

/-- The observable effects of one run of `collect`. -/
structure Scrape where
  ch : List Metric
  requests : List Str
  err : Bool
deriving DecidableEq, Repr

/-! ## The program -/

/-- Go `NewExporter`: the exporter keeps the host list it is given; a new
counter is at zero. -/
def NewExporter (zuulhosts : List zuulHost) : Exporter :=
  { scrapeHosts := zuulhosts, scrapeFailures := 0 }

/-- The string built on line 85:
`"http://" + host.hostname + ":" + host.port + "/status"`. -/
def scrapeURI (host : zuulHost) : Str :=
  "http://".toList ++ host.hostname ++ ":".toList ++ host.port ++ "/status".toList

/-- The `range` loop of `Exporter.collect`, lines 84-103, as the file stands,
over the hosts still to visit.

The closing brace of the loop on line 101 is inside the block that was
commented out, so the brace of line 103 is the one that closes the loop and
`return nil` (line 102) is the last statement of the loop body: the first
iteration returns, with an error after `up` 0 when the request failed, with
`nil` after `up` 1 when it did not, and no later host is visited.  The body of
`collect` is left without closing brace; it is taken to end after the loop,
with the result `nil` when the host list is empty and the loop body never
runs. -/
def collectHosts (client : Client) : List zuulHost → Scrape
  | [] => { ch := [], requests := [], err := false }
  | host :: _ =>
    let uri := scrapeURI host
    if client 0 uri then
      { ch := [Metric.up 1 host.hostname], requests := [uri], err := false }
    else
      { ch := [Metric.up 0 host.hostname], requests := [uri], err := true }

/-- Go `Exporter.collect`: the loop over `e.scrapeHosts`. -/
def Exporter.collect (e : Exporter) (client : Client) : Scrape :=
  collectHosts client e.scrapeHosts

/-- Go `Exporter.Collect`, lines 105-114, between `Lock` and `Unlock`: runs
`collect`; on error increments the counter and sends it on `ch`. -/
def Exporter.Collect (e : Exporter) (client : Client) : Exporter × Scrape :=
  let s := e.collect client
  if s.err then
    let e' := { e with scrapeFailures := e.scrapeFailures + 1 }
    (e', { s with ch := s.ch ++ [Metric.scrapeFailures e'.scrapeFailures] })
  else (e, s)

/-- The reason for which `main` stops at `log.Fatalln`. -/
inductive Fatal where
  | addressListMissing
  | badAddress (address : Str)
deriving DecidableEq, Repr

/-- The loop of `main`, lines 132-138, over the addresses still to split,
`zuulhosts` holding the hosts appended so far. -/
def appendHosts : List Str → List zuulHost → Except Fatal (List zuulHost)
  | [], zuulhosts => .ok zuulhosts
  | address :: rest, zuulhosts =>
    match SplitHostPort address with
    | .error _ => .error (.badAddress address)
    | .ok (host, port) => appendHosts rest (zuulhosts ++ [{ hostname := host, port := port }])

/-- Go `main`, lines 128-138: the host list built from the flag
`zuul.listen-address-list`. -/
def parseAddressList (zuulAddressList : Str) : Except Fatal (List zuulHost) :=
  if zuulAddressList = [] then .error .addressListMissing
  else appendHosts (Split zuulAddressList) []

/-- The metrics of descriptor `e.up` among those sent. -/
def upSamples (ch : List Metric) : List Metric :=
  ch.filter fun m => match m with
    | .up _ _ => true
    | .scrapeFailures _ => false

/-- Runs one `Collect` per client of the list, in order, from `e`; returns
the exporter after each cycle. -/
def runCycles : Exporter → List Client → List Exporter
  | _, [] => []
  | e, c :: cs => (e.Collect c).1 :: runCycles (e.Collect c).1 cs


/-! ## The scrape cycle -/

section Cycle

/-- Only gauges of `e.up` are sent by `collect`, one per request. -/
theorem upSamples_collectHosts (client : Client) (hosts : List zuulHost) :
    upSamples (collectHosts client hosts).ch = (collectHosts client hosts).ch ∧
      (collectHosts client hosts).requests.length = (collectHosts client hosts).ch.length := by
  cases hosts with
  | nil => exact ⟨rfl, rfl⟩
  | cons host rest =>
    by_cases h0 : client 0 (scrapeURI host) = true <;> simp [collectHosts, h0, upSamples]

/-- The gauges sent by `Collect` are those sent by `collect`. -/
theorem upSamples_Collect (e : Exporter) (client : Client) :
    upSamples (e.Collect client).2.ch = (e.collect client).ch := by
  have hup := (upSamples_collectHosts client e.scrapeHosts).1
  unfold Exporter.Collect
  by_cases herr : (e.collect client).err = true
  · simp only [herr, if_true]
    simp only [upSamples] at hup
    simp [upSamples, Exporter.collect, List.filter_append, hup]
  · simp only [herr]
    exact hup

/-- The requests of `Collect` are those of `collect`. -/
theorem requests_Collect (e : Exporter) (client : Client) :
    (e.Collect client).2.requests = (e.collect client).requests := by
  unfold Exporter.Collect
  by_cases herr : (e.collect client).err = true <;> simp [herr]

/-- One cycle leaves the host list alone and adds nothing or one to the counter. -/
theorem Collect_step (e : Exporter) (client : Client) :
    (e.Collect client).1.scrapeHosts = e.scrapeHosts ∧
      ((e.Collect client).1.scrapeFailures = e.scrapeFailures ∨
        (e.Collect client).1.scrapeFailures = e.scrapeFailures + 1) := by
  unfold Exporter.Collect
  by_cases herr : (e.collect client).err = true <;> simp [herr]

/-- The requests of `collect`: none for the empty host list, else the one for
the first host. -/
theorem requests_collectHosts (client : Client) (hosts : List zuulHost) :
    (collectHosts client hosts).requests = (hosts.take 1).map scrapeURI := by
  cases hosts with
  | nil => rfl
  | cons host rest =>
    by_cases h0 : client 0 (scrapeURI host) = true <;> simp [collectHosts, h0]

/-- Every exporter reached by a sequence of cycles has the host list of the
first one. -/
theorem runCycles_scrapeHosts (e : Exporter) (clients : List Client) :
    ∀ e' ∈ runCycles e clients, e'.scrapeHosts = e.scrapeHosts := by
  induction clients generalizing e with
  | nil => intro e' he'; simp [runCycles] at he'
  | cons c cs ih =>
    intro e' he'
    simp only [runCycles, List.mem_cons] at he'
    rcases he' with rfl | he'
    · exact (Collect_step e c).1
    · rw [ih _ e' he', (Collect_step e c).1]

/-- Along a sequence of cycles the counter stays or grows by one at each step. -/
theorem runCycles_chain (e : Exporter) (clients : List Client) :
    List.Chain (fun a b : Exporter =>
        b.scrapeFailures = a.scrapeFailures ∨ b.scrapeFailures = a.scrapeFailures + 1)
      e (runCycles e clients) := by
  induction clients generalizing e with
  | nil => exact List.Chain.nil
  | cons c cs ih => exact List.Chain.cons (Collect_step e c).2 (ih _)

/-- Claim C1, at the hosts `a:80` and `b:81`, both reachable, the counter at 5:
the cycle requests `http://a:80/status` only and sends the single gauge `up` 1
for `a`, where the claim has two gauges, one per host; the counter stays
at 5. -/
theorem C1_second_reachable_host_not_probed :
    (Exporter.Collect ⟨[⟨"a".toList, "80".toList⟩, ⟨"b".toList, "81".toList⟩], 5⟩
        (fun _ _ => true)).2.ch = [Metric.up 1 "a".toList] ∧
      (Exporter.Collect ⟨[⟨"a".toList, "80".toList⟩, ⟨"b".toList, "81".toList⟩], 5⟩
        (fun _ _ => true)).2.requests = ["http://a:80/status".toList] ∧
      (Exporter.Collect ⟨[⟨"a".toList, "80".toList⟩, ⟨"b".toList, "81".toList⟩], 5⟩
        (fun _ _ => true)).2.ch ≠ [Metric.up 1 "a".toList, Metric.up 1 "b".toList] ∧
      (Exporter.Collect ⟨[⟨"a".toList, "80".toList⟩, ⟨"b".toList, "81".toList⟩], 5⟩
        (fun _ _ => true)).1.scrapeFailures = 5 := by
  decide

/-- Claim C2, at the hosts A, B, C where the request to B alone fails: the
cycle sends `up` 1 for A and returns; the gauge `up` 0 for B, which the claim
has after it, is not sent. -/
theorem C2_unreachable_second_host_not_reported :
    upSamples (Exporter.Collect
        ⟨[⟨"A".toList, "1".toList⟩, ⟨"B".toList, "2".toList⟩, ⟨"C".toList, "3".toList⟩], 0⟩
        (fun _ uri => uri != "http://B:2/status".toList)).2.ch = [Metric.up 1 "A".toList] ∧
      Metric.up 0 "B".toList ∉ (Exporter.Collect
        ⟨[⟨"A".toList, "1".toList⟩, ⟨"B".toList, "2".toList⟩, ⟨"C".toList, "3".toList⟩], 0⟩
        (fun _ uri => uri != "http://B:2/status".toList)).2.ch := by
  decide

/-- Claim C3, at the hosts A, B, C where the request to B alone fails and the
counter is at 7: the cycle ends after A without error, the counter stays at 7
and is not sent, where the claim has it at 8 and sent after the gauges. -/
theorem C3_failure_behind_first_host_not_counted :
    (Exporter.Collect
        ⟨[⟨"A".toList, "1".toList⟩, ⟨"B".toList, "2".toList⟩, ⟨"C".toList, "3".toList⟩], 7⟩
        (fun _ uri => uri != "http://B:2/status".toList)).1.scrapeFailures = 7 ∧
      (Exporter.Collect
        ⟨[⟨"A".toList, "1".toList⟩, ⟨"B".toList, "2".toList⟩, ⟨"C".toList, "3".toList⟩], 7⟩
        (fun _ uri => uri != "http://B:2/status".toList)).2.ch = [Metric.up 1 "A".toList] := by
  decide

/-- Claim C8. Over every sequence of `Collect` cycles, whatever the outcome of the
requests, every exporter state has the host list given to `NewExporter`, and
from one state to the next the failure counter is unchanged or one higher. -/
theorem C8_hosts_fixed_counter_monotone (zuulhosts : List zuulHost) (clients : List Client) :
    (∀ e ∈ NewExporter zuulhosts :: runCycles (NewExporter zuulhosts) clients,
        e.scrapeHosts = zuulhosts) ∧
      List.Chain' (fun a b : Exporter =>
          b.scrapeFailures = a.scrapeFailures ∨ b.scrapeFailures = a.scrapeFailures + 1)
        (NewExporter zuulhosts :: runCycles (NewExporter zuulhosts) clients) := by
  refine ⟨?_, runCycles_chain _ clients⟩
  intro e he
  rcases List.mem_cons.mp he with rfl | he
  · rfl
  · exact runCycles_scrapeHosts _ clients e he

/-- Claim C9. The `up` gauges of a cycle depend on the host list and on the
outcome of the requests of that cycle only: two exporters with the same host
list, whatever their counters, send the same `up` gauges under the same
outcomes; so does every exporter reached from `e₁` by earlier cycles; and the
first request of a cycle is the one for the first host of the list. -/
theorem C9_cycle_independent_of_history (e₁ e₂ : Exporter) (client : Client)
    (h : e₁.scrapeHosts = e₂.scrapeHosts) :
    upSamples (e₁.Collect client).2.ch = upSamples (e₂.Collect client).2.ch ∧
      (∀ earlier : List Client, ∀ e ∈ runCycles e₁ earlier,
        upSamples (e.Collect client).2.ch = upSamples (e₁.Collect client).2.ch) ∧
      (e₁.Collect client).2.requests.head? = e₁.scrapeHosts.head?.map scrapeURI := by
  refine ⟨?_, ?_, ?_⟩
  · rw [upSamples_Collect, upSamples_Collect, Exporter.collect, Exporter.collect, h]
  · intro earlier e he
    rw [upSamples_Collect, upSamples_Collect, Exporter.collect, Exporter.collect,
      runCycles_scrapeHosts e₁ earlier e he]
  · rw [requests_Collect, Exporter.collect, requests_collectHosts]
    cases e₁.scrapeHosts <;> simp

/-- Witness of C9: the same two hosts with counters 0 and 9, the first
host unreachable. -/
theorem C9_cycle_independent_of_history_witness :
    upSamples (Exporter.Collect ⟨[⟨"A".toList, "1".toList⟩, ⟨"B".toList, "2".toList⟩], 0⟩
        (fun _ _ => false)).2.ch
      = upSamples (Exporter.Collect ⟨[⟨"A".toList, "1".toList⟩, ⟨"B".toList, "2".toList⟩], 9⟩
        (fun _ _ => false)).2.ch :=
  (C9_cycle_independent_of_history
    ⟨[⟨"A".toList, "1".toList⟩, ⟨"B".toList, "2".toList⟩], 0⟩
    ⟨[⟨"A".toList, "1".toList⟩, ⟨"B".toList, "2".toList⟩], 9⟩
    (fun _ _ => false) rfl).1

end Cycle

/-! ## The address list -/

section AddressList

/-- No first occurrence means no occurrence. -/
theorem IndexByte_eq_none (s : Str) (c : Char) : IndexByte s c = none ↔ c ∉ s := by
  induction s with
  | nil => simp [IndexByte]
  | cons x xs ih =>
    by_cases hx : x = c
    · simp [IndexByte, hx]
    · simp [IndexByte, hx, ih, Ne.symm hx]

/-- The first occurrence cuts the string at a `c` with no `c` before it. -/
theorem IndexByte_eq_some (s : Str) (c : Char) (m : Nat) (h : IndexByte s c = some m) :
    s.drop m = c :: s.drop (m + 1) ∧ c ∉ s.take m := by
  induction s generalizing m with
  | nil => simp [IndexByte] at h
  | cons x xs ih =>
    by_cases hx : x = c
    · simp [IndexByte, hx] at h
      subst h
      simp [hx]
    · simp only [IndexByte, hx, if_false, Option.map_eq_some'] at h
      obtain ⟨m', hm', rfl⟩ := h
      have := ih m' hm'
      simp [this.1, this.2, Ne.symm hx]

/-- No last occurrence means no occurrence. -/
theorem last_eq_none (s : Str) (c : Char) : last s c = none ↔ c ∉ s := by
  induction s with
  | nil => simp [last]
  | cons x xs ih =>
    cases hl : last xs c with
    | some i =>
      have : c ∈ xs := by
        by_contra hc
        rw [(ih).mpr hc] at hl
        exact Option.noConfusion hl
      simp [last, hl, this]
    | none =>
      have hc : c ∉ xs := ih.mp hl
      by_cases hx : x = c
      · simp [last, hl, hx]
      · simp [last, hl, hx, hc, Ne.symm hx]

/-- The last occurrence cuts the string at a `c` with no `c` after it. -/
theorem last_eq_some (s : Str) (c : Char) (i : Nat) (h : last s c = some i) :
    s.drop i = c :: s.drop (i + 1) ∧ c ∉ s.drop (i + 1) := by
  induction s generalizing i with
  | nil => simp [last] at h
  | cons x xs ih =>
    cases hl : last xs c with
    | some i' =>
      simp only [last, hl, Option.some.injEq] at h
      subst h
      simpa using ih i' hl
    | none =>
      have hc : c ∉ xs := (last_eq_none xs c).mp hl
      by_cases hx : x = c
      · simp only [last, hl, hx, if_true, Option.some.injEq] at h
        subst h
        simpa [hx] using hc
      · simp [last, hl, hx] at h

/-- The last occurrence of `c` in `h ++ c :: p` when `p` has none. -/
theorem last_append_cons (h p : Str) (c : Char) (hp : c ∉ p) :
    last (h ++ c :: p) c = some h.length := by
  induction h with
  | nil => simp [last, (last_eq_none p c).mpr hp]
  | cons x xs ih => simp [last, ih]

/-- With enough cuts allowed, `genSplit` returns one more element than there
are commas, the elements have no comma, and joined by commas they give the
string back. -/
theorem genSplit_spec (n : Nat) (s : Str) (hn : Count s ',' ≤ n) :
    (genSplit n s).length = Count s ',' + 1 ∧
      (∀ t ∈ genSplit n s, ',' ∉ t) ∧
      [','].intercalate (genSplit n s) = s := by
  induction n generalizing s with
  | zero =>
    have h0 : s.count ',' = 0 := Nat.le_zero.mp hn
    have hc : ',' ∉ s := List.count_eq_zero.mp h0
    simp [genSplit, Count, h0, hc, List.intercalate]
  | succ n ih =>
    cases hm : IndexByte s ',' with
    | none =>
      have hc : ',' ∉ s := (IndexByte_eq_none s ',').mp hm
      have h0 : s.count ',' = 0 := List.count_eq_zero.mpr hc
      simp [genSplit, hm, Count, h0, hc, List.intercalate]
    | some m =>
      obtain ⟨hd, ht⟩ := IndexByte_eq_some s ',' m hm
      have hs : s = s.take m ++ ',' :: s.drop (m + 1) := by
        rw [← hd, List.take_append_drop]
      have hcount : Count s ',' = Count (s.drop (m + 1)) ',' + 1 := by
        unfold Count
        conv_lhs => rw [hs]
        simp [List.count_append, List.count_eq_zero.mpr ht]
      have hn' : Count (s.drop (m + 1)) ',' ≤ n := by omega
      obtain ⟨h1, h2, h3⟩ := ih (s.drop (m + 1)) hn'
      refine ⟨by simp [genSplit, hm, h1, hcount], ?_, ?_⟩
      · intro t htm
        simp only [genSplit, hm, List.mem_cons] at htm
        rcases htm with rfl | htm
        · exact ht
        · exact h2 t htm
      · simp only [genSplit, hm]
        cases hg : genSplit n (s.drop (m + 1)) with
        | nil => simp [hg] at h1
        | cons t ts =>
          rw [hg] at h3
          simp only [List.intercalate, List.intersperse, List.flatten,
            List.append_assoc, List.singleton_append] at h3 ⊢
          conv_rhs => rw [hs]
          rw [← h3]

/-- The elements of `Split s`: one more than there are commas in `s`, each
without comma, and `s` is their concatenation with commas in between. -/
theorem Split_spec (s : Str) :
    (Split s).length = Count s ',' + 1 ∧
      (∀ t ∈ Split s, ',' ∉ t) ∧ [','].intercalate (Split s) = s :=
  genSplit_spec (Count s ',') s (Nat.le_refl _)

/-- The loop of `main` succeeds exactly when every address splits, and then
appends one host per address, in order. -/
theorem appendHosts_ok_iff (tokens : List Str) (acc hosts : List zuulHost) :
    appendHosts tokens acc = .ok hosts ↔
      ∃ new, hosts = acc ++ new ∧
        List.Forall₂ (fun t (h : zuulHost) => SplitHostPort t = .ok (h.hostname, h.port))
          tokens new := by
  induction tokens generalizing acc with
  | nil =>
    constructor
    · intro h
      simp only [appendHosts, Except.ok.injEq] at h
      exact ⟨[], by simp [h], List.Forall₂.nil⟩
    · rintro ⟨new, rfl, hf⟩
      cases hf
      simp [appendHosts]
  | cons t ts ih =>
    cases hs : SplitHostPort t with
    | error err =>
      constructor
      · intro h
        simp [appendHosts, hs] at h
      · rintro ⟨new, -, hf⟩
        cases hf with
        | cons h1 _ => rw [hs] at h1; exact Except.noConfusion h1
    | ok hp =>
      obtain ⟨host, port⟩ := hp
      simp only [appendHosts, hs]
      rw [ih]
      constructor
      · rintro ⟨new, rfl, hf⟩
        exact ⟨⟨host, port⟩ :: new, by simp, List.Forall₂.cons hs hf⟩
      · rintro ⟨new, rfl, hf⟩
        cases hf with
        | cons h1 hrest =>
          rename_i h new'
          rw [hs] at h1
          simp only [Except.ok.injEq, Prod.mk.injEq] at h1
          obtain ⟨hh, hp⟩ := h1
          refine ⟨new', ?_, hrest⟩
          cases h
          simp_all

/-- The loop of `main` stops with a fatal error as soon as one address does
not split. -/
theorem appendHosts_error (tokens : List Str) (acc : List zuulHost)
    (h : ∃ t ∈ tokens, ∃ err, SplitHostPort t = .error err) :
    ∃ address, appendHosts tokens acc = .error (.badAddress address) := by
  induction tokens generalizing acc with
  | nil => simp at h
  | cons t ts ih =>
    cases hs : SplitHostPort t with
    | error err => exact ⟨t, by simp [appendHosts, hs]⟩
    | ok hp =>
      obtain ⟨t', ht', err, herr⟩ := h
      rcases List.mem_cons.mp ht' with rfl | hmem
      · rw [hs] at herr; exact Except.noConfusion herr
      · simp only [appendHosts, hs]
        exact ih _ ⟨t', hmem, err, herr⟩

/-- The loop of `main` runs to its end when every address splits. -/
theorem appendHosts_total (tokens : List Str) (acc : List zuulHost)
    (h : ∀ t ∈ tokens, ∃ hp, SplitHostPort t = .ok hp) :
    ∃ hosts, appendHosts tokens acc = .ok hosts := by
  induction tokens generalizing acc with
  | nil => exact ⟨acc, rfl⟩
  | cons t ts ih =>
    obtain ⟨hp, hs⟩ := h t (List.mem_cons_self _ _)
    simp only [appendHosts, hs]
    exact ih _ fun t' ht' => h t' (List.mem_cons_of_mem _ ht')

/-- An address without colon does not split. -/
theorem SplitHostPort_no_colon (t : Str) (h : ':' ∉ t) :
    SplitHostPort t = .error ⟨"missing port in address", t⟩ := by
  simp [SplitHostPort, (last_eq_none t ':').mpr h]

/-- What an accepted address looks like: the port is what follows the last
colon, the host is what precedes it, without its brackets when the address
starts with `[`. -/
theorem SplitHostPort_ok (t host port : Str) (h : SplitHostPort t = .ok (host, port)) :
    ':' ∉ port ∧
      ((t.head? ≠ some '[' ∧ t = host ++ ':' :: port) ∨
        t = '[' :: (host ++ ']' :: ':' :: port)) := by
  unfold SplitHostPort at h
  cases hl : last t ':' with
  | none => simp [hl] at h
  | some i =>
    obtain ⟨hdrop, hafter⟩ := last_eq_some t ':' i hl
    simp only [hl] at h
    by_cases hb : t.head? = some '['
    · simp only [hb, if_true] at h
      cases he : IndexByte t ']' with
      | none => simp [he] at h
      | some e =>
        simp only [he] at h
        obtain ⟨hedrop, -⟩ := IndexByte_eq_some t ']' e he
        split at h
        · exact Except.noConfusion h
        · split at h
          · rename_i hei
            split at h
            · exact Except.noConfusion h
            · split at h
              · exact Except.noConfusion h
              · simp only [Except.ok.injEq, Prod.mk.injEq] at h
                obtain ⟨hh, hp⟩ := h
                subst hp
                refine ⟨hafter, Or.inr ?_⟩
                obtain ⟨t', rfl⟩ : ∃ t', t = '[' :: t' := by
                  cases t with
                  | nil => simp at hb
                  | cons x xs => exact ⟨xs, by simp at hb; simp [hb]⟩
                have hsplit : ('[' :: t') = ('[' :: t').take e ++ ('[' :: t').drop e :=
                  (List.take_append_drop e _).symm
                rw [hedrop, hei, hdrop] at hsplit
                cases e with
                | zero => simp at hedrop
                | succ e' =>
                  simp only [List.take_succ_cons, List.drop_succ_cons, List.drop_zero] at hh
                  simp only [List.take_succ_cons] at hsplit
                  rw [hh] at hsplit
                  simpa using hsplit
          · split at h <;> exact Except.noConfusion h
    · simp only [hb, if_false] at h
      split at h
      · exact Except.noConfusion h
      · split at h
        · exact Except.noConfusion h
        · split at h
          · exact Except.noConfusion h
          · simp only [Except.ok.injEq, Prod.mk.injEq] at h
            obtain ⟨hh, hp⟩ := h
            subst hp hh
            refine ⟨hafter, Or.inl ⟨hb, ?_⟩⟩
            rw [← hdrop, List.take_append_drop]

/-- Every `host:port` whose two parts are free of colons and brackets is
accepted, whatever the port is made of. -/
theorem SplitHostPort_accepts (host port : Str)
    (hh : ':' ∉ host ∧ '[' ∉ host ∧ ']' ∉ host)
    (hp : ':' ∉ port ∧ '[' ∉ port ∧ ']' ∉ port) :
    SplitHostPort (host ++ ':' :: port) = .ok (host, port) := by
  have hl := last_append_cons host port ':' hp.1
  have hhead : (host ++ ':' :: port).head? ≠ some '[' := by
    cases host with
    | nil => simp
    | cons x xs =>
      have : x ≠ '[' := fun hx => hh.2.1 (by simp [hx])
      simpa using this
  have h1 : IndexByte host ':' = none := (IndexByte_eq_none _ _).mpr hh.1
  have h2 : IndexByte (host ++ ':' :: port) '[' = none :=
    (IndexByte_eq_none _ _).mpr (by simp [hh.2.1, hp.2.1])
  have h3 : IndexByte (host ++ ':' :: port) ']' = none :=
    (IndexByte_eq_none _ _).mpr (by simp [hh.2.2, hp.2.2])
  have hhead0 : host.head? ≠ some '[' := by
    cases host with
    | nil => simp
    | cons x xs =>
      have : x ≠ '[' := fun hx => hh.2.1 (by simp [hx])
      simpa using this
  simp [SplitHostPort, hl, hhead, hhead0, h1, h2, h3]

/-- When `main` gets past the parse, the hosts are the addresses of the list,
split, one for one and in order. -/
theorem parseAddressList_ok (s : Str) (hosts : List zuulHost)
    (h : parseAddressList s = .ok hosts) :
    hosts.length = (Split s).length ∧
      ∀ (k : Nat) (t : Str) (host : zuulHost), (Split s)[k]? = some t → hosts[k]? = some host →
        SplitHostPort t = .ok (host.hostname, host.port) := by
  unfold parseAddressList at h
  split at h
  · exact Except.noConfusion h
  · obtain ⟨new, hnew, hf⟩ := (appendHosts_ok_iff _ _ _).mp h
    simp only [List.nil_append] at hnew
    subst hnew
    obtain ⟨hlen, hget⟩ := List.forall₂_iff_get.mp hf
    refine ⟨hlen.symm, ?_⟩
    intro k t host ht hhost
    obtain ⟨hk, rfl⟩ := List.getElem?_eq_some.mp ht
    obtain ⟨hk', rfl⟩ := List.getElem?_eq_some.mp hhost
    exact hget k hk hk'

/-- A string without comma is the only element of its split. -/
theorem Split_no_comma (t : Str) (h : ',' ∉ t) : Split t = [t] := by
  simp [Split, Count, List.count_eq_zero.mpr h, genSplit]

/-- Claim C4. For every non-empty address list whose comma-separated addresses
all split into host and port, the parse of `main` produces a host list with
one host per address, as many as there are commas plus one, the k-th host
being the host and port split from the k-th address; the addresses are the
comma-free pieces of the list, in order. -/
theorem C4_parse_length_and_order (s : Str) (hne : s ≠ [])
    (hacc : ∀ t ∈ Split s, ∃ hp, SplitHostPort t = .ok hp) :
    ∃ hosts, parseAddressList s = .ok hosts ∧
      hosts.length = (Split s).length ∧
      hosts.length = Count s ',' + 1 ∧
      (∀ (k : Nat) (t : Str) (host : zuulHost), (Split s)[k]? = some t →
        hosts[k]? = some host → SplitHostPort t = .ok (host.hostname, host.port)) ∧
      [','].intercalate (Split s) = s ∧ ∀ t ∈ Split s, ',' ∉ t := by
  obtain ⟨hosts, hok⟩ := appendHosts_total (Split s) [] hacc
  have hparse : parseAddressList s = .ok hosts := by
    simp [parseAddressList, hne, hok]
  obtain ⟨hlen, hk⟩ := parseAddressList_ok s hosts hparse
  obtain ⟨h1, h2, h3⟩ := Split_spec s
  exact ⟨hosts, hparse, hlen, by rw [hlen, h1], hk, h3, h2⟩

/-- Witness of C4: the list `a:80,b:81`. -/
theorem C4_parse_length_and_order_witness :
    ∃ hosts, parseAddressList "a:80,b:81".toList = .ok hosts ∧ hosts.length = 2 := by
  have hs : Split "a:80,b:81".toList = ["a:80".toList, "b:81".toList] := by decide
  obtain ⟨hosts, hok, hlen, -⟩ := C4_parse_length_and_order "a:80,b:81".toList (by decide)
    (by
      intro t ht
      rw [hs] at ht
      rcases List.mem_cons.mp ht with rfl | ht
      · exact ⟨("a".toList, "80".toList), by decide⟩
      · rcases List.mem_cons.mp ht with rfl | ht
        · exact ⟨("b".toList, "81".toList), by decide⟩
        · exact absurd ht (List.not_mem_nil _))
  exact ⟨hosts, hok, by rw [hlen, hs]; rfl⟩

/-- Claim C5. The parse of `main` ends in a fatal error, and yields no host
list, for the empty address list, for `bad`, and for every address list one of
whose comma-separated addresses has no colon, wherever it stands. -/
theorem C5_parse_rejects :
    parseAddressList [] = .error .addressListMissing ∧
      parseAddressList "bad".toList = .error (.badAddress "bad".toList) ∧
      ∀ s : Str, (∃ t ∈ Split s, ':' ∉ t) → ∃ err, parseAddressList s = .error err := by
  refine ⟨rfl, by decide, ?_⟩
  rintro s ⟨t, ht, hcolon⟩
  by_cases hs : s = []
  · exact ⟨.addressListMissing, by simp [parseAddressList, hs]⟩
  · obtain ⟨address, herr⟩ :=
      appendHosts_error (Split s) [] ⟨t, ht, _, SplitHostPort_no_colon t hcolon⟩
    exact ⟨.badAddress address, by simp [parseAddressList, hs, herr]⟩

/-- Witness of C5: the address without port stands between two good ones. -/
theorem C5_parse_rejects_witness :
    ∃ err, parseAddressList "a:80,bad,c:1".toList = .error err :=
  C5_parse_rejects.2.2 "a:80,bad,c:1".toList ⟨"bad".toList, by decide, by decide⟩

/-- Counterexample to C6 as stated: an empty port and a port that is not a
number are accepted, and for `[h]:1` the hostname is `h`, not the part `[h]`
that stands before the last colon. -/
theorem C6_counterexample :
    parseAddressList "h:".toList = .ok [⟨"h".toList, []⟩] ∧
      parseAddressList "h:x".toList = .ok [⟨"h".toList, "x".toList⟩] ∧
      parseAddressList "[h]:1".toList = .ok [⟨"h".toList, "1".toList⟩] ∧
      "h".toList ≠ "[h]".toList := by
  decide

/-- Claim C6, amended. For every address that the parse of `main` accepts, the
port is the part after the last colon, and the hostname is the part before the
last colon, without its enclosing brackets when the address starts with `[`;
every address without colon makes the parse fail; what the port is made of is
not checked: `host:port` is accepted for every host and port free of commas,
colons and brackets (the host also free of `%`), the empty port included. -/
theorem C6_split_on_last_colon :
    (∀ (s : Str) (hosts : List zuulHost), parseAddressList s = .ok hosts →
      ∀ (k : Nat) (t : Str) (host : zuulHost), (Split s)[k]? = some t → hosts[k]? = some host →
        ':' ∉ host.port ∧
          ((t.head? ≠ some '[' ∧ t = host.hostname ++ ':' :: host.port) ∨
            t = '[' :: (host.hostname ++ ']' :: ':' :: host.port))) ∧
      (∀ s : Str, (∃ t ∈ Split s, ':' ∉ t) → ∀ hosts, parseAddressList s ≠ .ok hosts) ∧
      (∀ host port : Str, '%' ∉ host → (∀ c ∈ [',', ':', '[', ']'], c ∉ host ∧ c ∉ port) →
        parseAddressList (host ++ ':' :: port) = .ok [⟨host, port⟩]) := by
  refine ⟨?_, ?_, ?_⟩
  · intro s hosts hok k t host ht hhost
    exact SplitHostPort_ok t host.hostname host.port
      ((parseAddressList_ok s hosts hok).2 k t host ht hhost)
  · rintro s ⟨t, ht, hcolon⟩ hosts hok
    obtain ⟨address, herr⟩ :=
      appendHosts_error (Split s) [] ⟨t, ht, _, SplitHostPort_no_colon t hcolon⟩
    have hok' : appendHosts (Split s) [] = .ok hosts := by
      unfold parseAddressList at hok
      split at hok
      · exact Except.noConfusion hok
      · exact hok
    rw [herr] at hok'
    exact Except.noConfusion hok'
  · intro host port _ hfree
    have hc := hfree ',' (by simp)
    have h1 := hfree ':' (by simp)
    have h2 := hfree '[' (by simp)
    have h3 := hfree ']' (by simp)
    have hsplit : Split (host ++ ':' :: port) = [host ++ ':' :: port] :=
      Split_no_comma _ (by simp [hc.1, hc.2])
    have hacc := SplitHostPort_accepts host port ⟨h1.1, h2.1, h3.1⟩ ⟨h1.2, h2.2, h3.2⟩
    simp [parseAddressList, hsplit, appendHosts, hacc]

/-- Witness of C6 amended: the list `[::1]:80,h:`. -/
theorem C6_split_on_last_colon_witness :
    "[::1]:80".toList = '[' :: ("::1".toList ++ ']' :: ':' :: "80".toList) ∧
      "h:".toList = "h".toList ++ ':' :: [] ∧
      parseAddressList ("h".toList ++ ':' :: "x".toList) = .ok [⟨"h".toList, "x".toList⟩] := by
  have h := C6_split_on_last_colon
  have h0 := h.1 "[::1]:80,h:".toList [⟨"::1".toList, "80".toList⟩, ⟨"h".toList, []⟩]
    (by decide) 0 "[::1]:80".toList ⟨"::1".toList, "80".toList⟩ (by decide) (by decide)
  have h1 := h.1 "[::1]:80,h:".toList [⟨"::1".toList, "80".toList⟩, ⟨"h".toList, []⟩]
    (by decide) 1 "h:".toList ⟨"h".toList, []⟩ (by decide) (by decide)
  refine ⟨?_, ?_, h.2.2 "h".toList "x".toList (by decide) (by decide)⟩
  · rcases h0.2 with ⟨hb, -⟩ | h0
    · exact absurd (by decide) hb
    · exact h0
  · rcases h1.2 with ⟨-, h1⟩ | h1
    · exact h1
    · exact absurd h1 (by decide)

/-- Claim C7. Every request of a `Collect` cycle is made for the URL `http://`,
the hostname, `:`, the port and `/status` of the host that stands at the place
of the request in the host list; the first host of a non-empty list is always
requested so; each request gives one `up` gauge; and when the first host was
split from an accepted address with a single colon and no bracket, the URL
requested is `http://`, the address itself and `/status`. -/
theorem C7_scrape_url (e : Exporter) (client : Client) :
    (∀ (k : Nat) (uri : Str), (e.Collect client).2.requests[k]? = some uri →
        ∃ host, e.scrapeHosts[k]? = some host ∧
          uri = "http://".toList ++ host.hostname ++ ":".toList ++ host.port
            ++ "/status".toList) ∧
      (∀ host, e.scrapeHosts.head? = some host →
        (e.Collect client).2.requests.head? =
          some ("http://".toList ++ host.hostname ++ ":".toList ++ host.port
            ++ "/status".toList)) ∧
      (e.Collect client).2.requests.length = (upSamples (e.Collect client).2.ch).length ∧
      ∀ token host port : Str, SplitHostPort token = .ok (host, port) →
        token.count ':' = 1 → '[' ∉ token → ']' ∉ token →
        e.scrapeHosts.head? = some ⟨host, port⟩ →
        (e.Collect client).2.requests.head? =
          some ("http://".toList ++ token ++ "/status".toList) := by
  have hreq : (e.Collect client).2.requests = (e.scrapeHosts.take 1).map scrapeURI := by
    rw [requests_Collect, Exporter.collect, requests_collectHosts]
  have hhead : ∀ host, e.scrapeHosts.head? = some host →
      (e.Collect client).2.requests.head? = some (scrapeURI host) := by
    intro host hh
    rw [hreq]
    cases hl : e.scrapeHosts with
    | nil => simp [hl] at hh
    | cons x xs =>
      have : x = host := by simpa [hl] using hh
      simp [this]
  refine ⟨?_, ?_, ?_, ?_⟩
  · intro k uri hk
    rw [hreq] at hk
    cases hl : e.scrapeHosts with
    | nil => simp [hl] at hk
    | cons x xs =>
      cases k with
      | zero =>
        have : scrapeURI x = uri := by simpa [hl] using hk
        exact ⟨x, by simp, by rw [← this]; rfl⟩
      | succ k => simp [hl] at hk
  · intro host hh
    rw [hhead host hh]
    rfl
  · rw [upSamples_Collect, requests_Collect]
    exact (upSamples_collectHosts client e.scrapeHosts).2
  · intro token host port hok _ hopen _ hh
    rw [hhead _ hh]
    rcases (SplitHostPort_ok token host port hok).2 with ⟨-, rfl⟩ | rfl
    · simp [scrapeURI]
    · exact absurd (List.mem_cons_self _ _) hopen

/-- Witness of C7: the first host split from the address `a:80` is requested
as `http://a:80/status`. -/
theorem C7_scrape_url_witness :
    (Exporter.Collect ⟨[⟨"a".toList, "80".toList⟩, ⟨"b".toList, "81".toList⟩], 0⟩
        (fun _ _ => true)).2.requests.head? = some "http://a:80/status".toList ∧
      (Exporter.Collect ⟨[⟨"a".toList, "80".toList⟩, ⟨"b".toList, "81".toList⟩], 0⟩
        (fun _ _ => true)).2.requests.length = 1 := by
  have h := C7_scrape_url ⟨[⟨"a".toList, "80".toList⟩, ⟨"b".toList, "81".toList⟩], 0⟩
    (fun _ _ => true)
  refine ⟨h.2.2.2 "a:80".toList "a".toList "80".toList
    (by decide) (by decide) (by decide) (by decide) rfl, ?_⟩
  rw [h.2.2.1]
  decide

end AddressList

end ZuulExporter
